import Mathlib

/-!
# lodestone: the statistics reducer of `lodestone.go`

A shallow embedding of `calculateStatistics` (lodestone.go, lines 55-95) and of the
data it works on, followed by theorems about it.

Modelling conventions.

* `time.Duration` is `int64`, Go `int` is 64 bit: both are `Int`, and the one place
  where the code does arithmetic that can leave the range (`timesSum += ...`, and the
  quotient) is wrapped explicitly by `wrap64`.
* `uint32` counters are `Nat`, every increment is taken modulo `2^32`.
* A Go `map[string]V` is an association list with distinct keys. `mapGet?` is the
  two-valued lookup `v, ok := m[k]`, `mapSet` is the assignment `m[k] = v`.
  Go leaves the iteration order of a map unspecified; the model iterates in order of
  first insertion. The theorems only speak about lookups and the key set, which do
  not depend on that order.
* Integer division by zero panics in Go: `goDiv` returns `none` there, and
  `calculateStatistics` returns an `Option`.
-/

namespace Lodestone

/-- The `result` struct of lodestone.go (lines 18-22). -/
structure result where
  url : String
  statusCode : Int
  timeElapsed : Int
  deriving DecidableEq

/-- The `summary` struct of lodestone.go (lines 24-30). -/
structure summary where
  successes : Nat
  failures : Nat
  meanTime : Int
  minTime : Int
  maxTime : Int
  deriving DecidableEq

/-- Wrap-around, in two-complement fashion, of an integer into the `int64` range. -/
def wrap64 (x : Int) : Int :=
  (x + 9223372036854775808) % 18446744073709551616 - 9223372036854775808

/-- Increment of a `uint32` counter (`successes++`, `failures++`). -/
def incr32 (n : Nat) : Nat := (n + 1) % 4294967296

/-- The operator `/` of Go on `int64`: a run-time panic (here `none`) for a zero divisor, otherwise
the quotient truncated toward zero, wrapped into the `int64` range. -/
def goDiv (a b : Int) : Option Int :=
  if b = 0 then none else some (wrap64 (Int.tdiv a b))

/-- Lookup `m[k]` in a Go map, with the `ok` flag as the option. -/
def mapGet? {V : Type} : List (String × V) → String → Option V
  | [], _ => none
  | (k, v) :: m, key => if k = key then some v else mapGet? m key

/-- Assignment `m[k] = v` in a Go map: an existing entry is overwritten, a new key
gets a new entry. -/
def mapSet {V : Type} : List (String × V) → String → V → List (String × V)
  | [], key, val => [(key, val)]
  | (k, v) :: m, key, val =>
    if k = key then (k, val) :: m else (k, v) :: mapSet m key val

/-- The keys of a Go map. -/
def mapKeys {V : Type} (m : List (String × V)) : List String := m.map Prod.fst

/-- The body of the first loop (lines 58-60): `urls[res.url] = append(urls[res.url], res)`;
a missing key reads as the nil slice. -/
def groupStep (urls : List (String × List result)) (res : result) :
    List (String × List result) :=
  let current := (mapGet? urls res.url).getD []
  let current := current ++ [res]
  mapSet urls res.url current

/-- The first loop (lines 56-61): the results grouped by url. -/
def groupByUrl (results : List result) : List (String × List result) :=
  results.foldl groupStep []

/-- The local variables of the inner loop (lines 65-66). -/
structure loopState where
  maxTime : Int
  minTime : Int
  timesSum : Int
  successes : Nat
  failures : Nat
  deriving DecidableEq

/-- The zero values the locals start with. -/
def loopInit : loopState := ⟨0, 0, 0, 0, 0⟩

/-- The test of line 68. -/
def isSuccess (res : result) : Prop := 200 ≤ res.statusCode ∧ res.statusCode < 300

instance (res : result) : Decidable (isSuccess res) := by
  unfold isSuccess; infer_instance

/-- The body of the inner loop (lines 68-79). -/
def loopStep (st : loopState) (res : result) : loopState :=
  if 200 ≤ res.statusCode ∧ res.statusCode < 300 then
    let successes := incr32 st.successes
    let minTime :=
      if res.timeElapsed < st.minTime ∨ st.minTime = 0 then res.timeElapsed else st.minTime
    let maxTime := if res.timeElapsed > st.maxTime then res.timeElapsed else st.maxTime
    let timesSum := wrap64 (st.timesSum + res.timeElapsed)
    { maxTime := maxTime, minTime := minTime, timesSum := timesSum,
      successes := successes, failures := st.failures }
  else
    { st with failures := incr32 st.failures }

/-- Lines 82-85: the mean, zero when there is no success. -/
def meanOf (st : loopState) : Option Int :=
  if st.successes > 0 then goDiv st.timesSum (st.successes : Int) else some 0

/-- Lines 65-92 for one group: the inner loop, the mean and the summary literal. -/
def summarize (urlResults : List result) : Option summary :=
  let st := urlResults.foldl loopStep loopInit
  match meanOf st with
  | none => none
  | some meanTime =>
    some { successes := st.successes, failures := st.failures, minTime := st.minTime,
           maxTime := st.maxTime, meanTime := meanTime }

/-- The second loop (lines 63-93) over the groups `urls`, writing `stats[url]`. -/
def statsLoop : List (String × List result) → List (String × summary) →
    Option (List (String × summary))
  | [], stats => some stats
  | (url, urlResults) :: rest, stats =>
    match summarize urlResults with
    | none => none
    | some s => statsLoop rest (mapSet stats url s)

/-- The function `calculateStatistics` of lodestone.go (lines 55-95); `none` stands for a
run-time panic. -/
def calculateStatistics (results : List result) : Option (List (String × summary)) :=
  statsLoop (groupByUrl results) []

/-- The summary stored under `u` in the table that `calculateStatistics` returns. -/
def statFor (results : List result) (u : String) : Option summary :=
  match calculateStatistics results with
  | none => none
  | some stats => mapGet? stats u

/-- The durations of the successful results of a list, in order. -/
def succTimes (l : List result) : List Int :=
  (l.filter (fun r => isSuccess r)).map (fun r => r.timeElapsed)

/-- The update of `minTime` (lines 70-72) as a function of the old value and the new
duration. -/
def minStep (m t : Int) : Int := if t < m ∨ m = 0 then t else m

/-- The update of `maxTime` (lines 73-75). -/
def maxStep (m t : Int) : Int := if t > m then t else m

/-- The update of `timesSum` (line 76). -/
def sumStep (s t : Int) : Int := wrap64 (s + t)

/-- The durations of the successful results with url `u`, in order of arrival. -/
def timesOf (rs : List result) (u : String) : List Int :=
  (rs.filter (fun r => r.url = u ∧ isSuccess r)).map (fun r => r.timeElapsed)

/-- The failed results with url `u`. -/
def failuresOf (rs : List result) (u : String) : List result :=
  rs.filter (fun r => r.url = u ∧ ¬ isSuccess r)

/-! ## Go maps as association lists -/

theorem mapGet?_mapSet {V : Type} (m : List (String × V)) (k : String) (v : V) (key : String) :
    mapGet? (mapSet m k v) key = if k = key then some v else mapGet? m key := by
  induction m with
  | nil => simp [mapSet, mapGet?]
  | cons e m ih =>
    obtain ⟨k0, v0⟩ := e
    by_cases h0 : k0 = k
    · subst h0
      by_cases h1 : k0 = key <;> simp [mapSet, mapGet?, h1]
    · by_cases h1 : k0 = key
      · subst h1
        simp [mapSet, mapGet?, h0, Ne.symm h0]
      · simp [mapSet, mapGet?, h0, h1, ih]

theorem mem_mapKeys_mapSet {V : Type} (m : List (String × V)) (k : String) (v : V)
    (x : String) : x ∈ mapKeys (mapSet m k v) ↔ x = k ∨ x ∈ mapKeys m := by
  induction m with
  | nil => simp [mapSet, mapKeys]
  | cons e m ih =>
    obtain ⟨k0, v0⟩ := e
    by_cases h0 : k0 = k
    · subst h0
      simp [mapSet, mapKeys]
    · have ih2 : x ∈ List.map Prod.fst (mapSet m k v) ↔ x = k ∨ x ∈ List.map Prod.fst m := ih
      simp only [mapSet, h0, if_false, mapKeys, List.map_cons, List.mem_cons, ih2]
      tauto

theorem nodup_mapKeys_mapSet {V : Type} (m : List (String × V)) (k : String) (v : V)
    (h : (mapKeys m).Nodup) : (mapKeys (mapSet m k v)).Nodup := by
  induction m with
  | nil => simp [mapSet, mapKeys]
  | cons e m ih =>
    obtain ⟨k0, v0⟩ := e
    have hcons : k0 ∉ mapKeys m ∧ (mapKeys m).Nodup := by
      simpa [mapKeys] using h
    by_cases h0 : k0 = k
    · subst h0
      simpa [mapSet, mapKeys] using h
    · have hk : k0 ∉ mapKeys (mapSet m k v) := by
        rw [mem_mapKeys_mapSet]
        rintro (h1 | h1)
        · exact h0 h1
        · exact hcons.1 h1
      have hn := ih hcons.2
      simp only [mapSet, h0, if_false]
      exact List.nodup_cons.mpr ⟨hk, hn⟩

theorem mapGet?_eq_none_iff {V : Type} (m : List (String × V)) (key : String) :
    mapGet? m key = none ↔ key ∉ mapKeys m := by
  induction m with
  | nil => simp [mapGet?, mapKeys]
  | cons e m ih =>
    obtain ⟨k0, v0⟩ := e
    have ih2 : mapGet? m key = none ↔ key ∉ List.map Prod.fst m := ih
    by_cases h0 : k0 = key
    · subst h0
      simp [mapGet?, mapKeys]
    · simp only [mapGet?, h0, if_false, mapKeys, List.map_cons, List.mem_cons, ih2]
      constructor
      · rintro h1 (h2 | h2)
        · exact h0 h2.symm
        · exact h1 h2
      · intro h1 h2
        exact h1 (Or.inr h2)

/-! ## The grouping loop -/

theorem groupFold_get (rs : List result) (acc : List (String × List result)) (u : String) :
    (mapGet? (rs.foldl groupStep acc) u).getD [] =
      (mapGet? acc u).getD [] ++ rs.filter (fun r => r.url = u) := by
  induction rs generalizing acc with
  | nil => simp
  | cons r rs ih =>
    rw [List.foldl_cons, ih]
    by_cases h : r.url = u
    · simp [groupStep, mapGet?_mapSet, h, List.filter_cons]
    · simp [groupStep, mapGet?_mapSet, h, List.filter_cons]

theorem groupFold_keys (rs : List result) (acc : List (String × List result)) (u : String) :
    u ∈ mapKeys (rs.foldl groupStep acc) ↔ u ∈ mapKeys acc ∨ ∃ r ∈ rs, r.url = u := by
  induction rs generalizing acc with
  | nil => simp
  | cons r rs ih =>
    rw [List.foldl_cons, ih]
    simp only [groupStep, mem_mapKeys_mapSet, List.mem_cons, exists_eq_or_imp]
    constructor
    · rintro ((h | h) | h)
      · exact Or.inr (Or.inl h.symm)
      · exact Or.inl h
      · exact Or.inr (Or.inr h)
    · rintro (h | h | h)
      · exact Or.inl (Or.inr h)
      · exact Or.inl (Or.inl h.symm)
      · exact Or.inr h

theorem groupFold_nodup (rs : List result) (acc : List (String × List result))
    (h : (mapKeys acc).Nodup) : (mapKeys (rs.foldl groupStep acc)).Nodup := by
  induction rs generalizing acc with
  | nil => simpa using h
  | cons r rs ih =>
    rw [List.foldl_cons]
    exact ih _ (nodup_mapKeys_mapSet _ _ _ h)

theorem groupByUrl_nodup (rs : List result) : (mapKeys (groupByUrl rs)).Nodup :=
  groupFold_nodup rs [] (by simp [mapKeys])

theorem mem_mapKeys_groupByUrl (rs : List result) (u : String) :
    u ∈ mapKeys (groupByUrl rs) ↔ ∃ r ∈ rs, r.url = u := by
  unfold groupByUrl
  rw [groupFold_keys]
  simp [mapKeys]

theorem mapGet?_groupByUrl (rs : List result) (u : String) :
    mapGet? (groupByUrl rs) u =
      if ∃ r ∈ rs, r.url = u then some (rs.filter (fun r => r.url = u)) else none := by
  by_cases h : ∃ r ∈ rs, r.url = u
  · rw [if_pos h]
    have hk : u ∈ mapKeys (groupByUrl rs) := (mem_mapKeys_groupByUrl rs u).mpr h
    have hg := groupFold_get rs [] u
    cases hget : mapGet? (groupByUrl rs) u with
    | none => exact absurd hk ((mapGet?_eq_none_iff _ _).mp hget)
    | some l =>
      have hget2 : mapGet? (List.foldl groupStep [] rs) u = some l := hget
      rw [hget2] at hg
      simp [mapGet?] at hg
      rw [hg]
  · rw [if_neg h]
    rw [mapGet?_eq_none_iff, mem_mapKeys_groupByUrl]
    exact h

/-! ## The inner loop, field by field -/

theorem succTimes_cons (r : result) (l : List result) :
    succTimes (r :: l) = if isSuccess r then r.timeElapsed :: succTimes l else succTimes l := by
  by_cases h : isSuccess r <;> simp [succTimes, List.filter_cons, h]

theorem loopStep_success (st : loopState) (r : result) (h : isSuccess r) :
    loopStep st r =
      { maxTime := maxStep st.maxTime r.timeElapsed,
        minTime := minStep st.minTime r.timeElapsed,
        timesSum := sumStep st.timesSum r.timeElapsed,
        successes := incr32 st.successes,
        failures := st.failures } := by
  have h2 : 200 ≤ r.statusCode ∧ r.statusCode < 300 := h
  simp [loopStep, h2, maxStep, minStep, sumStep]

theorem loopStep_failure (st : loopState) (r : result) (h : ¬ isSuccess r) :
    loopStep st r = { st with failures := incr32 st.failures } := by
  have h2 : ¬ (200 ≤ r.statusCode ∧ r.statusCode < 300) := h
  simp only [loopStep, h2, if_false]

theorem loop_minTime (l : List result) (st : loopState) :
    (l.foldl loopStep st).minTime = (succTimes l).foldl minStep st.minTime := by
  induction l generalizing st with
  | nil => simp [succTimes]
  | cons r l ih =>
    rw [List.foldl_cons, ih, succTimes_cons]
    by_cases h : isSuccess r
    · simp [h, loopStep_success]
    · simp [h, loopStep_failure]

theorem loop_maxTime (l : List result) (st : loopState) :
    (l.foldl loopStep st).maxTime = (succTimes l).foldl maxStep st.maxTime := by
  induction l generalizing st with
  | nil => simp [succTimes]
  | cons r l ih =>
    rw [List.foldl_cons, ih, succTimes_cons]
    by_cases h : isSuccess r
    · simp [h, loopStep_success]
    · simp [h, loopStep_failure]

theorem loop_timesSum (l : List result) (st : loopState) :
    (l.foldl loopStep st).timesSum = (succTimes l).foldl sumStep st.timesSum := by
  induction l generalizing st with
  | nil => simp [succTimes]
  | cons r l ih =>
    rw [List.foldl_cons, ih, succTimes_cons]
    by_cases h : isSuccess r
    · simp [h, loopStep_success]
    · simp [h, loopStep_failure]

theorem loop_successes (l : List result) (st : loopState) (hst : st.successes < 4294967296) :
    (l.foldl loopStep st).successes = (st.successes + (succTimes l).length) % 4294967296 := by
  induction l generalizing st with
  | nil => simp [succTimes]; omega
  | cons r l ih =>
    rw [List.foldl_cons, succTimes_cons]
    by_cases h : isSuccess r
    · rw [ih]
      · simp only [h, if_true, loopStep_success, incr32, List.length_cons]
        omega
      · simp only [h, loopStep_success, incr32]
        omega
    · rw [ih]
      · simp [h, loopStep_failure]
      · simpa [h, loopStep_failure] using hst

theorem loop_failures (l : List result) (st : loopState) (hst : st.failures < 4294967296) :
    (l.foldl loopStep st).failures =
      (st.failures + (l.filter (fun r => ¬ isSuccess r)).length) % 4294967296 := by
  induction l generalizing st with
  | nil => simp; omega
  | cons r l ih =>
    rw [List.foldl_cons]
    by_cases h : isSuccess r
    · rw [ih]
      · simp [h, loopStep_success, List.filter_cons]
      · simpa [h, loopStep_success] using hst
    · rw [ih]
      · simp only [h, loopStep_failure, incr32, List.filter_cons, not_false_eq_true,
          decide_True, if_true, List.length_cons]
        omega
      · simp only [h, loopStep_failure, incr32, not_false_eq_true]
        omega

/-! ## The folds over the durations -/

theorem wrap64_of_range (x : Int) (h1 : -9223372036854775808 ≤ x)
    (h2 : x < 9223372036854775808) : wrap64 x = x := by
  unfold wrap64
  omega

theorem wrap64_wrap64_add (a b : Int) : wrap64 (wrap64 a + b) = wrap64 (a + b) := by
  unfold wrap64
  omega

theorem sumFold_eq (ts : List Int) (s : Int) (hs : wrap64 s = s) :
    ts.foldl sumStep s = wrap64 (s + ts.sum) := by
  induction ts generalizing s with
  | nil => simpa using hs.symm
  | cons t ts ih =>
    rw [List.foldl_cons, ih]
    · simp only [sumStep, List.sum_cons, wrap64_wrap64_add, add_assoc]
    · unfold sumStep wrap64
      omega

theorem maxFold_ge (ts : List Int) (m : Int) :
    m ≤ ts.foldl maxStep m ∧ (∀ t ∈ ts, t ≤ ts.foldl maxStep m) ∧
      (ts.foldl maxStep m = m ∨ ts.foldl maxStep m ∈ ts) := by
  induction ts generalizing m with
  | nil => simp
  | cons t ts ih =>
    rw [List.foldl_cons]
    obtain ⟨h1, h2, h3⟩ := ih (maxStep m t)
    have hm : m ≤ maxStep m t ∧ t ≤ maxStep m t ∧ (maxStep m t = m ∨ maxStep m t = t) := by
      unfold maxStep
      split <;> omega
    refine ⟨le_trans hm.1 h1, ?_, ?_⟩
    · intro x hx
      rcases List.mem_cons.mp hx with hx | hx
      · subst hx
        exact le_trans hm.2.1 h1
      · exact h2 x hx
    · rcases h3 with h3 | h3
      · rcases hm.2.2 with h4 | h4
        · exact Or.inl (h3.trans h4)
        · exact Or.inr (List.mem_cons.mpr (Or.inl (h3.trans h4)))
      · exact Or.inr (List.mem_cons_of_mem _ h3)

/-- Started from a non-zero value and fed non-zero durations, the `minTime` update is an
honest running minimum. -/
theorem minFold_nonzero (ts : List Int) (m : Int) (hm : m ≠ 0) (hts : ∀ t ∈ ts, t ≠ 0) :
    ts.foldl minStep m ≤ m ∧ (∀ t ∈ ts, ts.foldl minStep m ≤ t) ∧
      (ts.foldl minStep m = m ∨ ts.foldl minStep m ∈ ts) := by
  induction ts generalizing m with
  | nil => simp
  | cons t ts ih =>
    rw [List.foldl_cons]
    have ht : t ≠ 0 := hts t (List.mem_cons_self _ _)
    have hstep : minStep m t ≠ 0 ∧ minStep m t ≤ m ∧ minStep m t ≤ t ∧
        (minStep m t = m ∨ minStep m t = t) := by
      unfold minStep
      split <;> omega
    obtain ⟨h1, h2, h3⟩ := ih (minStep m t) hstep.1
      (fun x hx => hts x (List.mem_cons_of_mem _ hx))
    refine ⟨le_trans h1 hstep.2.1, ?_, ?_⟩
    · intro x hx
      rcases List.mem_cons.mp hx with hx | hx
      · subst hx
        exact le_trans h1 hstep.2.2.1
      · exact h2 x hx
    · rcases h3 with h3 | h3
      · rcases hstep.2.2.2 with h4 | h4
        · exact Or.inl (h3.trans h4)
        · exact Or.inr (List.mem_cons.mpr (Or.inl (h3.trans h4)))
      · exact Or.inr (List.mem_cons_of_mem _ h3)

/-- From the zero value, over a non-empty list of non-zero durations, the `minTime`
update yields the minimum of the list. -/
theorem minFold_zero (ts : List Int) (hne : ts ≠ []) (hts : ∀ t ∈ ts, t ≠ 0) :
    ts.foldl minStep 0 ∈ ts ∧ ∀ t ∈ ts, ts.foldl minStep 0 ≤ t := by
  cases ts with
  | nil => exact absurd rfl hne
  | cons t ts =>
    have ht : t ≠ 0 := hts t (List.mem_cons_self _ _)
    have h0 : minStep 0 t = t := by simp [minStep]
    rw [List.foldl_cons, h0]
    obtain ⟨h1, h2, h3⟩ := minFold_nonzero ts t ht
      (fun x hx => hts x (List.mem_cons_of_mem _ hx))
    refine ⟨?_, ?_⟩
    · rcases h3 with h3 | h3
      · exact List.mem_cons.mpr (Or.inl h3)
      · exact List.mem_cons_of_mem _ h3
    · intro x hx
      rcases List.mem_cons.mp hx with hx | hx
      · subst hx
        exact h1
      · exact h2 x hx

/-- From the zero value, over a non-empty list of non-negative durations, the `maxTime`
update yields the maximum of the list. -/
theorem maxFold_zero (ts : List Int) (hne : ts ≠ []) (hts : ∀ t ∈ ts, 0 ≤ t) :
    ts.foldl maxStep 0 ∈ ts ∧ ∀ t ∈ ts, t ≤ ts.foldl maxStep 0 := by
  obtain ⟨h1, h2, h3⟩ := maxFold_ge ts 0
  refine ⟨?_, h2⟩
  rcases h3 with h3 | h3
  · cases ts with
    | nil => exact absurd rfl hne
    | cons t ts =>
      have ha : t ≤ 0 := by
        have := h2 t (List.mem_cons_self _ _)
        rw [h3] at this
        exact this
      have hb : 0 ≤ t := hts t (List.mem_cons_self _ _)
      have ht : t = 0 := le_antisymm ha hb
      rw [h3, ← ht]
      exact List.mem_cons_self _ _
  · exact h3

theorem sum_ge_of_forall_ge (ts : List Int) (a : Int) (h : ∀ t ∈ ts, a ≤ t) :
    (ts.length : Int) * a ≤ ts.sum := by
  induction ts with
  | nil => simp
  | cons t ts ih =>
    have h1 := h t (List.mem_cons_self _ _)
    have h2 := ih (fun x hx => h x (List.mem_cons_of_mem _ hx))
    simp only [List.length_cons, List.sum_cons, Nat.cast_add, Nat.cast_one]
    nlinarith

theorem sum_le_of_forall_le (ts : List Int) (a : Int) (h : ∀ t ∈ ts, t ≤ a) :
    ts.sum ≤ (ts.length : Int) * a := by
  induction ts with
  | nil => simp
  | cons t ts ih =>
    have h1 := h t (List.mem_cons_self _ _)
    have h2 := ih (fun x hx => h x (List.mem_cons_of_mem _ hx))
    simp only [List.length_cons, List.sum_cons, Nat.cast_add, Nat.cast_one]
    nlinarith

/-! ## Truncated division by a positive divisor -/

theorem tdiv_cases (s n : Int) (hn : 0 < n) :
    (0 ≤ s ∧ s.tdiv n = s / n) ∨ (s < 0 ∧ s.tdiv n = -((-s) / n)) := by
  by_cases hs : 0 ≤ s
  · exact Or.inl ⟨hs, Int.tdiv_eq_ediv hs (le_of_lt hn)⟩
  · have hs2 : s < 0 := not_le.mp hs
    refine Or.inr ⟨hs2, ?_⟩
    have h1 : (-(-s)).tdiv n = -((-s).tdiv n) := Int.neg_tdiv (-s) n
    rw [neg_neg] at h1
    rw [h1, Int.tdiv_eq_ediv (by omega) (le_of_lt hn)]

theorem tdiv_le_of_le_mul (s n M : Int) (hn : 0 < n) (hM : 0 ≤ M) (h : s ≤ n * M) :
    s.tdiv n ≤ M := by
  rcases tdiv_cases s n hn with ⟨_, h2⟩ | ⟨h1, h2⟩
  · rw [h2]
    exact Int.ediv_le_of_le_mul hn (by rw [mul_comm]; exact h)
  · rw [h2]
    have : 0 ≤ (-s) / n := Int.ediv_nonneg (by omega) (le_of_lt hn)
    omega

theorem le_tdiv_of_mul_le (s n m : Int) (hn : 0 < n) (h : n * m ≤ s) : m ≤ s.tdiv n := by
  rcases tdiv_cases s n hn with ⟨_, h2⟩ | ⟨_, h2⟩
  · rw [h2]
    exact Int.le_ediv_of_mul_le hn (by rw [mul_comm]; exact h)
  · rw [h2]
    have h3 : (-s) / n ≤ -m := by
      apply Int.ediv_le_of_le_mul hn
      have : -m * n = -(n * m) := by ring
      rw [this]
      omega
    omega

theorem tdiv_range (s n : Int) (hn : 0 < n) (h1 : -9223372036854775808 ≤ s)
    (h2 : s < 9223372036854775808) :
    -9223372036854775808 ≤ s.tdiv n ∧ s.tdiv n < 9223372036854775808 := by
  rcases tdiv_cases s n hn with ⟨h3, h4⟩ | ⟨h3, h4⟩
  · rw [h4]
    have ha : 0 ≤ s / n := Int.ediv_nonneg h3 (le_of_lt hn)
    have hb : s / n ≤ s := Int.ediv_le_self n h3
    omega
  · rw [h4]
    have ha : 0 ≤ (-s) / n := Int.ediv_nonneg (by omega) (le_of_lt hn)
    have hb : (-s) / n ≤ -s := Int.ediv_le_self n (by omega)
    omega

/-! ## The mean and the summary of one group -/

theorem meanOf_zero (st : loopState) (h : st.successes = 0) : meanOf st = some 0 := by
  simp [meanOf, h]

theorem meanOf_pos (st : loopState) (h : 0 < st.successes) :
    meanOf st = some (wrap64 (Int.tdiv st.timesSum (st.successes : Int))) := by
  have h2 : ((st.successes : Nat) : Int) ≠ 0 := by
    have : (0 : Int) < (st.successes : Int) := by exact_mod_cast h
    omega
  simp [meanOf, h, goDiv, h2]

/-- The division of line 84 never has a zero divisor: one group always gets a summary. -/
theorem summarize_some (l : List result) :
    ∃ mean, meanOf (l.foldl loopStep loopInit) = some mean ∧
      summarize l = some
        { successes := (l.foldl loopStep loopInit).successes,
          failures := (l.foldl loopStep loopInit).failures,
          minTime := (l.foldl loopStep loopInit).minTime,
          maxTime := (l.foldl loopStep loopInit).maxTime,
          meanTime := mean } := by
  by_cases h : 0 < (l.foldl loopStep loopInit).successes
  · refine ⟨_, meanOf_pos _ h, ?_⟩
    simp only [summarize, meanOf_pos _ h]
  · have h0 : (l.foldl loopStep loopInit).successes = 0 := by omega
    refine ⟨_, meanOf_zero _ h0, ?_⟩
    simp only [summarize, meanOf_zero _ h0]

/-! ## The second loop and the table -/

theorem statsLoop_spec (m : List (String × List result)) (acc : List (String × summary))
    (hm : (mapKeys m).Nodup) :
    ∃ tbl, statsLoop m acc = some tbl ∧
      (∀ u, mapGet? tbl u =
        match mapGet? m u with
        | some l => summarize l
        | none => mapGet? acc u) ∧
      (∀ u, u ∈ mapKeys tbl ↔ u ∈ mapKeys acc ∨ u ∈ mapKeys m) ∧
      ((mapKeys acc).Nodup → (mapKeys tbl).Nodup) := by
  induction m generalizing acc with
  | nil =>
    refine ⟨acc, rfl, ?_, ?_, fun h => h⟩
    · intro u
      simp [mapGet?]
    · intro u
      simp [mapKeys]
  | cons e m ih =>
    obtain ⟨k, l⟩ := e
    have hcons : k ∉ mapKeys m ∧ (mapKeys m).Nodup := by
      simpa [mapKeys] using hm
    obtain ⟨mean, _, hs⟩ := summarize_some l
    obtain ⟨tbl, h1, h2, h3, h4⟩ := ih (mapSet acc k _) hcons.2
    refine ⟨tbl, ?_, ?_, ?_, ?_⟩
    · simp only [statsLoop, hs]
      exact h1
    · intro u
      rw [h2 u]
      by_cases hk : k = u
      · subst hk
        have hnone : mapGet? m k = none := (mapGet?_eq_none_iff m k).mpr hcons.1
        simp [mapGet?, hnone, mapGet?_mapSet, hs]
      · simp [mapGet?, hk, mapGet?_mapSet]
    · intro u
      rw [h3 u, mem_mapKeys_mapSet]
      simp only [mapKeys, List.map_cons, List.mem_cons]
      tauto
    · intro hacc
      exact h4 (nodup_mapKeys_mapSet _ _ _ hacc)

/-- The table as a whole: it is always produced, its keys are the urls of the input,
each once, and under each url lies the summary of the results with that url. -/
theorem calculateStatistics_spec (rs : List result) :
    ∃ tbl, calculateStatistics rs = some tbl ∧
      (∀ u, mapGet? tbl u =
        if ∃ r ∈ rs, r.url = u then summarize (rs.filter (fun r => r.url = u)) else none) ∧
      (∀ u, u ∈ mapKeys tbl ↔ ∃ r ∈ rs, r.url = u) ∧
      (mapKeys tbl).Nodup := by
  obtain ⟨tbl, h1, h2, h3, h4⟩ := statsLoop_spec (groupByUrl rs) [] (groupByUrl_nodup rs)
  refine ⟨tbl, h1, ?_, ?_, h4 (by simp [mapKeys])⟩
  · intro u
    rw [h2 u, mapGet?_groupByUrl]
    by_cases h : ∃ r ∈ rs, r.url = u
    · simp only [h, if_true]
    · simp only [h, if_false, mapGet?]
  · intro u
    rw [h3 u, mem_mapKeys_groupByUrl]
    simp [mapKeys]

theorem statFor_eq (rs : List result) (u : String) :
    statFor rs u =
      if ∃ r ∈ rs, r.url = u then summarize (rs.filter (fun r => r.url = u)) else none := by
  obtain ⟨tbl, h1, h2, _, _⟩ := calculateStatistics_spec rs
  simp only [statFor, h1, h2 u]

theorem succTimes_filter_url (rs : List result) (u : String) :
    succTimes (rs.filter (fun r => r.url = u)) =
      (rs.filter (fun r => r.url = u ∧ isSuccess r)).map (fun r => r.timeElapsed) := by
  unfold succTimes
  rw [List.filter_filter]
  congr 1
  apply List.filter_congr
  intro r _
  by_cases h1 : r.url = u <;> by_cases h2 : isSuccess r <;> simp [h1, h2]

theorem failures_filter_url (rs : List result) (u : String) :
    (rs.filter (fun r => r.url = u)).filter (fun r => ¬ isSuccess r) = failuresOf rs u := by
  unfold failuresOf
  rw [List.filter_filter]
  apply List.filter_congr
  intro r _
  by_cases h1 : r.url = u <;> by_cases h2 : isSuccess r <;> simp [h1, h2]

/-- Every field of the summary stored under a url that occurs in the input, as a function
of the results with that url. -/
theorem statFor_fields (rs : List result) (u : String) (hu : ∃ r ∈ rs, r.url = u) :
    ∃ s, statFor rs u = some s ∧
      s.successes = (timesOf rs u).length % 4294967296 ∧
      s.failures = (failuresOf rs u).length % 4294967296 ∧
      s.minTime = (timesOf rs u).foldl minStep 0 ∧
      s.maxTime = (timesOf rs u).foldl maxStep 0 ∧
      (s.successes = 0 → s.meanTime = 0) ∧
      (0 < s.successes →
        s.meanTime = wrap64 (Int.tdiv (wrap64 (timesOf rs u).sum) (s.successes : Int))) := by
  obtain ⟨mean, hmean, hs⟩ := summarize_some (rs.filter (fun r => r.url = u))
  have hstat : statFor rs u = summarize (rs.filter (fun r => r.url = u)) := by
    rw [statFor_eq, if_pos hu]
  have htimes : succTimes (rs.filter (fun r => r.url = u)) = timesOf rs u :=
    succTimes_filter_url rs u
  have hsum : ((rs.filter (fun r => r.url = u)).foldl loopStep loopInit).timesSum =
      wrap64 (timesOf rs u).sum := by
    rw [loop_timesSum, htimes, sumFold_eq _ _ (by decide)]
    simp [loopInit]
  refine ⟨_, hstat.trans hs, ?_, ?_, ?_, ?_, ?_, ?_⟩
  · simp only []
    rw [loop_successes _ _ (by decide), htimes]
    simp [loopInit]
  · simp only []
    rw [loop_failures _ _ (by decide), failures_filter_url]
    simp [loopInit]
  · simp only []
    rw [loop_minTime, htimes]
    rfl
  · simp only []
    rw [loop_maxTime, htimes]
    rfl
  · intro h0
    simp only [] at h0 ⊢
    rw [meanOf_zero _ h0] at hmean
    exact (Option.some.inj hmean).symm
  · intro hpos
    simp only [] at hpos ⊢
    rw [meanOf_pos _ hpos, hsum] at hmean
    exact (Option.some.inj hmean).symm

theorem length_split (rs : List result) (u : String) :
    (timesOf rs u).length + (failuresOf rs u).length =
      (rs.filter (fun r => r.url = u)).length := by
  unfold timesOf failuresOf
  rw [List.length_map]
  induction rs with
  | nil => simp
  | cons r rs ih =>
    by_cases h1 : r.url = u <;> by_cases h2 : isSuccess r <;>
      simp [List.filter_cons, h1, h2] at ih ⊢ <;> omega

theorem timesOf_length_le (rs : List result) (u : String) :
    (timesOf rs u).length ≤ rs.length := by
  unfold timesOf
  rw [List.length_map]
  exact List.length_filter_le _ _

theorem failuresOf_length_le (rs : List result) (u : String) :
    (failuresOf rs u).length ≤ rs.length := by
  unfold failuresOf
  exact List.length_filter_le _ _

theorem timesOf_ne_nil (rs : List result) (u : String)
    (h : ∃ r ∈ rs, r.url = u ∧ isSuccess r) : timesOf rs u ≠ [] := by
  obtain ⟨r, hr, h1, h2⟩ := h
  intro hnil
  have hmem : r.timeElapsed ∈ timesOf rs u := by
    unfold timesOf
    apply List.mem_map.mpr
    refine ⟨r, ?_, rfl⟩
    apply List.mem_filter.mpr
    exact ⟨hr, by simp [h1, h2]⟩
  rw [hnil] at hmem
  exact absurd hmem (List.not_mem_nil _)

theorem mem_timesOf (rs : List result) (u : String) (t : Int) :
    t ∈ timesOf rs u ↔ ∃ r ∈ rs, r.url = u ∧ isSuccess r ∧ r.timeElapsed = t := by
  unfold timesOf
  constructor
  · intro h
    obtain ⟨r, hr, rfl⟩ := List.mem_map.mp h
    obtain ⟨hr1, hr2⟩ := List.mem_filter.mp hr
    have hr3 : r.url = u ∧ isSuccess r := by simpa using hr2
    exact ⟨r, hr1, hr3.1, hr3.2, rfl⟩
  · rintro ⟨r, hr, h1, h2, rfl⟩
    apply List.mem_map.mpr
    refine ⟨r, ?_, rfl⟩
    apply List.mem_filter.mpr
    exact ⟨hr, by simp [h1, h2]⟩

/-! ## Many copies of one successful result -/

theorem timesOf_replicate (n : Nat) (t : Int) :
    timesOf (List.replicate n ⟨"u", 200, t⟩) "u" = List.replicate n t := by
  induction n with
  | zero => simp [timesOf]
  | succ n ih =>
    unfold timesOf at ih ⊢
    rw [List.replicate_succ, List.filter_cons]
    have hp : decide ((⟨"u", 200, t⟩ : result).url = "u" ∧ isSuccess ⟨"u", 200, t⟩) = true := by
      simp [isSuccess]
    rw [if_pos hp, List.map_cons, ih, List.replicate_succ]

theorem failuresOf_replicate (n : Nat) (t : Int) :
    failuresOf (List.replicate n ⟨"u", 200, t⟩) "u" = [] := by
  induction n with
  | zero => simp [failuresOf]
  | succ n ih =>
    unfold failuresOf at ih ⊢
    rw [List.replicate_succ, List.filter_cons]
    have hp : ¬ (decide ((⟨"u", 200, t⟩ : result).url = "u" ∧ ¬ isSuccess ⟨"u", 200, t⟩)
        = true) := by
      simp [isSuccess]
    rw [if_neg hp, ih]

theorem maxFold_replicate (n : Nat) (t m : Int) (h : maxStep m t = m) :
    (List.replicate n t).foldl maxStep m = m := by
  induction n with
  | zero => simp
  | succ n ih => rw [List.replicate_succ, List.foldl_cons, h, ih]

theorem maxStep_idem (m t : Int) : maxStep (maxStep m t) t = maxStep m t := by
  unfold maxStep
  split <;> simp

theorem sum_replicate_int (n : Nat) (t : Int) : (List.replicate n t).sum = (n : Int) * t := by
  induction n with
  | zero => simp
  | succ n ih =>
    rw [List.replicate_succ, List.sum_cons, ih]
    push_cast
    ring

/-- The summary of `n > 0` copies of one successful result of duration `t`. -/
theorem statFor_replicate (n : Nat) (t : Int) (hn : 0 < n) :
    ∃ s, statFor (List.replicate n ⟨"u", 200, t⟩) "u" = some s ∧
      s.successes = n % 4294967296 ∧
      s.maxTime = maxStep 0 t ∧
      (s.successes = 0 → s.meanTime = 0) ∧
      (0 < s.successes →
        s.meanTime = wrap64 (Int.tdiv (wrap64 ((n : Int) * t)) (s.successes : Int))) := by
  have hu : ∃ r ∈ List.replicate n (⟨"u", 200, t⟩ : result), r.url = "u" :=
    ⟨⟨"u", 200, t⟩, List.mem_replicate.mpr ⟨by omega, rfl⟩, rfl⟩
  obtain ⟨s, hs, h1, _, _, h4, h5, h6⟩ := statFor_fields _ "u" hu
  rw [timesOf_replicate] at h1 h4 h6
  rw [List.length_replicate] at h1
  rw [sum_replicate_int] at h6
  refine ⟨s, hs, h1, ?_, h5, h6⟩
  rw [h4]
  obtain ⟨k, rfl⟩ : ∃ k, n = k + 1 := ⟨n - 1, by omega⟩
  rw [List.replicate_succ, List.foldl_cons]
  exact maxFold_replicate k t _ (maxStep_idem 0 t)

/-! ## The claims -/

/-- C1. For a list of fewer than `2^32` results and a url `u` occurring in it, the summary
stored under `u` has as `successes` the number of results with url `u` whose status code
lies in `[200, 300)`, as `failures` the number of all other results with url `u`, and the
two add up to the number of results with url `u`. -/
theorem successes_failures_count (rs : List result) (u : String)
    (hlen : rs.length < 4294967296) (hu : ∃ r ∈ rs, r.url = u) :
    ∃ s, statFor rs u = some s ∧
      s.successes =
        (rs.filter (fun r => r.url = u ∧ (200 ≤ r.statusCode ∧ r.statusCode < 300))).length ∧
      s.failures =
        (rs.filter (fun r => r.url = u ∧ ¬ (200 ≤ r.statusCode ∧ r.statusCode < 300))).length ∧
      s.successes + s.failures = (rs.filter (fun r => r.url = u)).length := by
  obtain ⟨s, hs, h1, h2, _⟩ := statFor_fields rs u hu
  have ha := timesOf_length_le rs u
  have hb := failuresOf_length_le rs u
  have hc := length_split rs u
  have h1b : s.successes = (timesOf rs u).length := by omega
  have h2b : s.failures = (failuresOf rs u).length := by omega
  refine ⟨s, hs, ?_, ?_, ?_⟩
  · rw [h1b]
    simp [timesOf, isSuccess]
  · rw [h2b]
    simp [failuresOf, isSuccess]
  · omega

/-- C1 at a concrete input: three results for one url, one of them a transport failure
(status code 0). -/
theorem successes_failures_count_witness :
    ([⟨"a", 200, 50⟩, ⟨"a", 0, 10⟩, ⟨"a", 299, 150⟩, ⟨"b", 300, 1⟩] : List result).length
        < 4294967296 ∧
    ∃ s, statFor [⟨"a", 200, 50⟩, ⟨"a", 0, 10⟩, ⟨"a", 299, 150⟩, ⟨"b", 300, 1⟩] "a" = some s ∧
      s.successes =
        (([⟨"a", 200, 50⟩, ⟨"a", 0, 10⟩, ⟨"a", 299, 150⟩, ⟨"b", 300, 1⟩] : List result).filter
          (fun r => r.url = "a" ∧ (200 ≤ r.statusCode ∧ r.statusCode < 300))).length ∧
      s.failures =
        (([⟨"a", 200, 50⟩, ⟨"a", 0, 10⟩, ⟨"a", 299, 150⟩, ⟨"b", 300, 1⟩] : List result).filter
          (fun r => r.url = "a" ∧ ¬ (200 ≤ r.statusCode ∧ r.statusCode < 300))).length ∧
      s.successes + s.failures =
        (([⟨"a", 200, 50⟩, ⟨"a", 0, 10⟩, ⟨"a", 299, 150⟩, ⟨"b", 300, 1⟩] : List result).filter
          (fun r => r.url = "a")).length :=
  ⟨by decide,
   successes_failures_count [⟨"a", 200, 50⟩, ⟨"a", 0, 10⟩, ⟨"a", 299, 150⟩, ⟨"b", 300, 1⟩] "a"
     (by decide) ⟨⟨"a", 200, 50⟩, by simp, rfl⟩⟩

/-- C2, as stated, fails. First input: a success of duration zero followed by one of
duration 5 leaves `minTime = 5` above `meanTime = 2`. Second input: two successes of
`2^62` ns each make `timesSum` wrap around, and `meanTime = -2^62` lies below `minTime`.
Third input: `2^32 + 1` successes of 1 ns make the `uint32` counter wrap to 1, and
`meanTime = 2^32 + 1` lies above `maxTime = 1`. -/
theorem min_mean_max_counterexample :
    (∃ s, statFor [⟨"u", 200, 0⟩, ⟨"u", 200, 5⟩] "u" = some s ∧ 0 < s.successes ∧
      s.meanTime < s.minTime) ∧
    (∃ s, statFor [⟨"u", 200, 4611686018427387904⟩, ⟨"u", 200, 4611686018427387904⟩] "u"
        = some s ∧ 0 < s.successes ∧ s.meanTime < s.minTime) ∧
    (∃ s, statFor (List.replicate 4294967297 ⟨"u", 200, 1⟩) "u" = some s ∧
      0 < s.successes ∧ s.maxTime < s.meanTime) := by
  refine ⟨⟨⟨2, 0, 2, 5, 5⟩, by decide, by decide, by decide⟩,
    ⟨⟨2, 0, -4611686018427387904, 4611686018427387904, 4611686018427387904⟩,
      by decide, by decide, by decide⟩, ?_⟩
  obtain ⟨s, hs, h1, h2, h3, h4⟩ := statFor_replicate 4294967297 1 (by decide)
  have h1b : s.successes = 1 := by omega
  have h4b := h4 (by omega)
  rw [h1b] at h4b
  have h2b : s.maxTime = 1 := by rw [h2]; decide
  have h4c : s.meanTime = 4294967297 := by rw [h4b]; decide
  exact ⟨s, hs, by omega, by omega⟩

/-- C2, amended. When the url `u` has fewer than `2^32` successful results, none of them
of duration zero, and their durations add up to a value in the `int64` range, a summary
with `successes > 0` satisfies `minTime ≤ meanTime ≤ maxTime`. -/
theorem min_mean_max (rs : List result) (u : String) (s : summary)
    (hs : statFor rs u = some s) (hpos : 0 < s.successes)
    (hcnt : (timesOf rs u).length < 4294967296)
    (hnz : ∀ r ∈ rs, r.url = u → isSuccess r → r.timeElapsed ≠ 0)
    (hlo : -9223372036854775808 ≤ (timesOf rs u).sum)
    (hhi : (timesOf rs u).sum < 9223372036854775808) :
    s.minTime ≤ s.meanTime ∧ s.meanTime ≤ s.maxTime := by
  have hu : ∃ r ∈ rs, r.url = u := by
    by_contra hno
    rw [statFor_eq, if_neg hno] at hs
    exact Option.noConfusion hs
  obtain ⟨s2, hs2, h1, _, h3, h4, _, h6⟩ := statFor_fields rs u hu
  have hss : s2 = s := Option.some.inj (hs2.symm.trans hs)
  subst hss
  have hlen : s2.successes = (timesOf rs u).length := by omega
  have hne : timesOf rs u ≠ [] := by
    intro hnil
    rw [hnil] at hlen
    simp at hlen
    omega
  have hnz2 : ∀ t ∈ timesOf rs u, t ≠ 0 := by
    intro t ht
    obtain ⟨r, hr, hr1, hr2, hr3⟩ := (mem_timesOf rs u t).mp ht
    rw [← hr3]
    exact hnz r hr hr1 hr2
  obtain ⟨_, hmin⟩ := minFold_zero (timesOf rs u) hne hnz2
  obtain ⟨hmax0, hmax, _⟩ := maxFold_ge (timesOf rs u) 0
  rw [← h3] at hmin
  rw [← h4] at hmax hmax0
  have hsum1 := sum_ge_of_forall_ge (timesOf rs u) s2.minTime hmin
  have hsum2 := sum_le_of_forall_le (timesOf rs u) s2.maxTime hmax
  have hn : (0 : Int) < ((timesOf rs u).length : Int) := by
    have : 0 < (timesOf rs u).length := by omega
    exact_mod_cast this
  have hmean : s2.meanTime = Int.tdiv (timesOf rs u).sum ((timesOf rs u).length : Int) := by
    rw [h6 hpos, hlen, wrap64_of_range _ hlo hhi]
    obtain ⟨ha, hb⟩ := tdiv_range _ _ hn hlo hhi
    exact wrap64_of_range _ ha hb
  rw [hmean]
  exact ⟨le_tdiv_of_mul_le _ _ _ hn hsum1, tdiv_le_of_le_mul _ _ _ hn hmax0 hsum2⟩

/-- C2 amended, at a concrete input: successes of 50 and 150 and a failure of 10. -/
theorem min_mean_max_witness :
    ∃ s, statFor [⟨"u", 200, 50⟩, ⟨"u", 500, 10⟩, ⟨"u", 200, 150⟩] "u" = some s ∧
      0 < s.successes ∧
      (timesOf [⟨"u", 200, 50⟩, ⟨"u", 500, 10⟩, ⟨"u", 200, 150⟩] "u").length < 4294967296 ∧
      (timesOf [⟨"u", 200, 50⟩, ⟨"u", 500, 10⟩, ⟨"u", 200, 150⟩] "u").sum = 200 ∧
      s.minTime ≤ s.meanTime ∧ s.meanTime ≤ s.maxTime :=
  ⟨⟨2, 1, 100, 50, 150⟩, by decide, by decide, by decide, by decide,
    min_mean_max [⟨"u", 200, 50⟩, ⟨"u", 500, 10⟩, ⟨"u", 200, 150⟩] "u" ⟨2, 1, 100, 50, 150⟩
      (by decide) (by decide) (by decide) (by decide) (by decide) (by decide)⟩

/-- C3 fails on the code. The two lists are permutations of each other, yet the summaries
stored under the url differ: `minTime` is 5 for one order of arrival and 0 for the
other. -/
theorem permutation_changes_minTime :
    List.Perm ([⟨"u", 200, 0⟩, ⟨"u", 200, 5⟩] : List result) [⟨"u", 200, 5⟩, ⟨"u", 200, 0⟩] ∧
    statFor [⟨"u", 200, 0⟩, ⟨"u", 200, 5⟩] "u" =
      some { successes := 2, failures := 0, meanTime := 2, minTime := 5, maxTime := 5 } ∧
    statFor [⟨"u", 200, 5⟩, ⟨"u", 200, 0⟩] "u" =
      some { successes := 2, failures := 0, meanTime := 2, minTime := 0, maxTime := 5 } ∧
    statFor [⟨"u", 200, 0⟩, ⟨"u", 200, 5⟩] "u" ≠ statFor [⟨"u", 200, 5⟩, ⟨"u", 200, 0⟩] "u" :=
  ⟨List.Perm.swap _ _ _, by decide, by decide, by decide⟩

/-- C4 fails on the code. With a success of duration zero followed by a success of
duration 5, the stored `minTime` is 5, although a successful result of the same url has
the smaller duration 0. -/
theorem minTime_misses_zero_duration :
    ∃ s, statFor [⟨"u", 200, 0⟩, ⟨"u", 200, 5⟩] "u" = some s ∧ s.minTime = 5 ∧
      ∃ r ∈ ([⟨"u", 200, 0⟩, ⟨"u", 200, 5⟩] : List result),
        r.url = "u" ∧ isSuccess r ∧ r.timeElapsed < s.minTime :=
  ⟨⟨2, 0, 2, 5, 5⟩, by decide, by decide, ⟨"u", 200, 0⟩, by decide, by decide, by decide,
    by decide⟩

/-- C5, as stated, fails: `2^32` successes of 1 ns each. Their sum `2^32` is far inside
the `int64` range and sum divided by count is 1, but the `uint32` counter has wrapped to
zero, line 83 skips the division and the stored `meanTime` is 0. -/
theorem meanTime_counterexample :
    (∃ r ∈ List.replicate 4294967296 (⟨"u", 200, 1⟩ : result), r.url = "u" ∧ isSuccess r) ∧
    (timesOf (List.replicate 4294967296 ⟨"u", 200, 1⟩) "u").sum = 4294967296 ∧
    (timesOf (List.replicate 4294967296 ⟨"u", 200, 1⟩) "u").length = 4294967296 ∧
    Int.tdiv (timesOf (List.replicate 4294967296 ⟨"u", 200, 1⟩) "u").sum
      ((timesOf (List.replicate 4294967296 ⟨"u", 200, 1⟩) "u").length : Int) = 1 ∧
    ∃ s, statFor (List.replicate 4294967296 ⟨"u", 200, 1⟩) "u" = some s ∧ s.meanTime = 0 := by
  obtain ⟨s, hs, h1, _, h3, _⟩ := statFor_replicate 4294967296 1 (by decide)
  have h1b : s.successes = 0 := by omega
  refine ⟨⟨⟨"u", 200, 1⟩, List.mem_replicate.mpr ⟨by decide, rfl⟩, rfl, by decide⟩,
    ?_, ?_, ?_, s, hs, h3 h1b⟩
  · rw [timesOf_replicate, sum_replicate_int]
    decide
  · rw [timesOf_replicate, List.length_replicate]
  · rw [timesOf_replicate, sum_replicate_int, List.length_replicate]
    decide

/-- C5, amended. For a url `u` with at least one and fewer than `2^32` successful results
whose durations add up to a value in the `int64` range, the stored `meanTime` is that sum
divided, truncating, by the number of successes. And the outcomes (200, 50 ms),
(500, 10 ms), (200, 150 ms) of one url give successes 2, failures 1, minTime 50 ms,
maxTime 150 ms, meanTime 100 ms. -/
theorem meanTime_is_mean :
    (∀ (rs : List result) (u : String),
      (∃ r ∈ rs, r.url = u ∧ isSuccess r) →
      (timesOf rs u).length < 4294967296 →
      -9223372036854775808 ≤ (timesOf rs u).sum →
      (timesOf rs u).sum < 9223372036854775808 →
      ∃ s, statFor rs u = some s ∧
        s.meanTime = Int.tdiv (timesOf rs u).sum ((timesOf rs u).length : Int)) ∧
    statFor [⟨"u", 200, 50000000⟩, ⟨"u", 500, 10000000⟩, ⟨"u", 200, 150000000⟩] "u" =
      some { successes := 2, failures := 1, minTime := 50000000, maxTime := 150000000,
             meanTime := 100000000 } := by
  refine ⟨?_, by decide⟩
  intro rs u hu hcnt hlo hhi
  have hu2 : ∃ r ∈ rs, r.url = u := by
    obtain ⟨r, hr, h1, _⟩ := hu
    exact ⟨r, hr, h1⟩
  obtain ⟨s, hs, h1, _, _, _, _, h6⟩ := statFor_fields rs u hu2
  have hne := timesOf_ne_nil rs u hu
  have hlen0 : 0 < (timesOf rs u).length := List.length_pos.mpr hne
  have hlen : s.successes = (timesOf rs u).length := by omega
  have hn : (0 : Int) < ((timesOf rs u).length : Int) := by exact_mod_cast hlen0
  refine ⟨s, hs, ?_⟩
  rw [h6 (by omega), hlen, wrap64_of_range _ hlo hhi]
  obtain ⟨ha, hb⟩ := tdiv_range _ _ hn hlo hhi
  exact wrap64_of_range _ ha hb

/-- C5 amended, at a concrete input: successes of 7 and 2 and a failure of 100; the mean
is 9 / 2 = 4. -/
theorem meanTime_is_mean_witness :
    (∃ r ∈ ([⟨"u", 200, 7⟩, ⟨"u", 404, 100⟩, ⟨"u", 204, 2⟩] : List result),
      r.url = "u" ∧ isSuccess r) ∧
    (timesOf [⟨"u", 200, 7⟩, ⟨"u", 404, 100⟩, ⟨"u", 204, 2⟩] "u").sum = 9 ∧
    ∃ s, statFor [⟨"u", 200, 7⟩, ⟨"u", 404, 100⟩, ⟨"u", 204, 2⟩] "u" = some s ∧
      s.meanTime = Int.tdiv (timesOf [⟨"u", 200, 7⟩, ⟨"u", 404, 100⟩, ⟨"u", 204, 2⟩] "u").sum
        ((timesOf [⟨"u", 200, 7⟩, ⟨"u", 404, 100⟩, ⟨"u", 204, 2⟩] "u").length : Int) :=
  ⟨by decide, by decide,
    meanTime_is_mean.1 [⟨"u", 200, 7⟩, ⟨"u", 404, 100⟩, ⟨"u", 204, 2⟩] "u"
      (by decide) (by decide) (by decide) (by decide)⟩

/-- C6. When no result has a negative duration and the url `u` has a successful result,
the stored `maxTime` is the maximum duration over the successful results with url `u`: it
is the duration of one of them and no one of them exceeds it. -/
theorem maxTime_is_max (rs : List result) (u : String)
    (hnn : ∀ r ∈ rs, 0 ≤ r.timeElapsed)
    (hu : ∃ r ∈ rs, r.url = u ∧ isSuccess r) :
    ∃ s, statFor rs u = some s ∧
      (∃ r ∈ rs, r.url = u ∧ isSuccess r ∧ r.timeElapsed = s.maxTime) ∧
      (∀ r ∈ rs, r.url = u → isSuccess r → r.timeElapsed ≤ s.maxTime) := by
  have hu2 : ∃ r ∈ rs, r.url = u := by
    obtain ⟨r, hr, h1, _⟩ := hu
    exact ⟨r, hr, h1⟩
  obtain ⟨s, hs, _, _, _, h4, _⟩ := statFor_fields rs u hu2
  have hts : ∀ t ∈ timesOf rs u, 0 ≤ t := by
    intro t ht
    obtain ⟨r, hr, _, _, hr3⟩ := (mem_timesOf rs u t).mp ht
    rw [← hr3]
    exact hnn r hr
  obtain ⟨hmem, hmax⟩ := maxFold_zero (timesOf rs u) (timesOf_ne_nil rs u hu) hts
  rw [← h4] at hmem hmax
  refine ⟨s, hs, (mem_timesOf rs u _).mp hmem, ?_⟩
  intro r hr h1 h2
  exact hmax _ ((mem_timesOf rs u _).mpr ⟨r, hr, h1, h2, rfl⟩)

/-- C6 at a concrete input: the failure of duration 900 does not count, the maximum over
the successes is 150. -/
theorem maxTime_is_max_witness :
    (∀ r ∈ ([⟨"u", 200, 50⟩, ⟨"u", 500, 900⟩, ⟨"u", 200, 150⟩] : List result),
      0 ≤ r.timeElapsed) ∧
    ∃ s, statFor [⟨"u", 200, 50⟩, ⟨"u", 500, 900⟩, ⟨"u", 200, 150⟩] "u" = some s ∧
      (∃ r ∈ ([⟨"u", 200, 50⟩, ⟨"u", 500, 900⟩, ⟨"u", 200, 150⟩] : List result),
        r.url = "u" ∧ isSuccess r ∧ r.timeElapsed = s.maxTime) ∧
      (∀ r ∈ ([⟨"u", 200, 50⟩, ⟨"u", 500, 900⟩, ⟨"u", 200, 150⟩] : List result),
        r.url = "u" → isSuccess r → r.timeElapsed ≤ s.maxTime) :=
  ⟨by decide,
    maxTime_is_max [⟨"u", 200, 50⟩, ⟨"u", 500, 900⟩, ⟨"u", 200, 150⟩] "u"
      (by decide) (by decide)⟩

/-- C7. For a url `u` that occurs in the input and has no successful result, the table is
produced (the run does not panic on a division by zero) and the summary stored under `u`
has `minTime = 0`, `meanTime = 0` and `maxTime = 0`. -/
theorem no_success_zero_times (rs : List result) (u : String)
    (hu : ∃ r ∈ rs, r.url = u)
    (hfail : ∀ r ∈ rs, r.url = u → ¬ (200 ≤ r.statusCode ∧ r.statusCode < 300)) :
    ∃ tbl s, calculateStatistics rs = some tbl ∧ mapGet? tbl u = some s ∧
      s.minTime = 0 ∧ s.meanTime = 0 ∧ s.maxTime = 0 := by
  obtain ⟨tbl, htbl, _⟩ := calculateStatistics_spec rs
  obtain ⟨s, hs, h1, _, h3, h4, h5, _⟩ := statFor_fields rs u hu
  have hnil : timesOf rs u = [] := by
    cases hts : timesOf rs u with
    | nil => rfl
    | cons t ts =>
      have hmem : t ∈ timesOf rs u := by
        rw [hts]
        exact List.mem_cons_self _ _
      obtain ⟨r, hr, hr1, hr2, _⟩ := (mem_timesOf rs u t).mp hmem
      exact absurd hr2 (hfail r hr hr1)
  rw [hnil] at h1 h3 h4
  have hget : mapGet? tbl u = some s := by
    simpa only [statFor, htbl] using hs
  exact ⟨tbl, s, htbl, hget, h3, h5 h1, h4⟩

/-- C7 at a concrete input: url `a` has a transport failure and a 500, url `b` a success. -/
theorem no_success_zero_times_witness :
    (∃ r ∈ ([⟨"a", 0, 30⟩, ⟨"b", 200, 7⟩, ⟨"a", 500, 10⟩] : List result), r.url = "a") ∧
    ∃ tbl s, calculateStatistics [⟨"a", 0, 30⟩, ⟨"b", 200, 7⟩, ⟨"a", 500, 10⟩] = some tbl ∧
      mapGet? tbl "a" = some s ∧ s.minTime = 0 ∧ s.meanTime = 0 ∧ s.maxTime = 0 :=
  ⟨by decide,
    no_success_zero_times [⟨"a", 0, 30⟩, ⟨"b", 200, 7⟩, ⟨"a", 500, 10⟩] "a"
      (by decide) (by decide)⟩

/-- C8. The table is always produced; its keys are exactly the urls that occur in the
input, each of them once; and the empty input gives the empty table. -/
theorem table_keys :
    (∀ rs : List result, ∃ tbl, calculateStatistics rs = some tbl ∧
      (∀ u, u ∈ mapKeys tbl ↔ ∃ r ∈ rs, r.url = u) ∧ (mapKeys tbl).Nodup) ∧
    calculateStatistics [] = some [] := by
  refine ⟨?_, rfl⟩
  intro rs
  obtain ⟨tbl, h1, _, h3, h4⟩ := calculateStatistics_spec rs
  exact ⟨tbl, h1, h3, h4⟩

/-- C10. When every successful result has a strictly positive duration and the url `u`
has a successful result, the stored `minTime` is the minimum duration over the successful
results with url `u`: it is the duration of one of them and no one of them is below it. -/
theorem minTime_is_min_of_positive (rs : List result) (u : String)
    (hpos : ∀ r ∈ rs, isSuccess r → 0 < r.timeElapsed)
    (hu : ∃ r ∈ rs, r.url = u ∧ isSuccess r) :
    ∃ s, statFor rs u = some s ∧
      (∃ r ∈ rs, r.url = u ∧ isSuccess r ∧ r.timeElapsed = s.minTime) ∧
      (∀ r ∈ rs, r.url = u → isSuccess r → s.minTime ≤ r.timeElapsed) := by
  have hu2 : ∃ r ∈ rs, r.url = u := by
    obtain ⟨r, hr, h1, _⟩ := hu
    exact ⟨r, hr, h1⟩
  obtain ⟨s, hs, _, _, h3, _⟩ := statFor_fields rs u hu2
  have hts : ∀ t ∈ timesOf rs u, t ≠ 0 := by
    intro t ht
    obtain ⟨r, hr, _, hr2, hr3⟩ := (mem_timesOf rs u t).mp ht
    have := hpos r hr hr2
    omega
  obtain ⟨hmem, hmin⟩ := minFold_zero (timesOf rs u) (timesOf_ne_nil rs u hu) hts
  rw [← h3] at hmem hmin
  refine ⟨s, hs, (mem_timesOf rs u _).mp hmem, ?_⟩
  intro r hr h1 h2
  exact hmin _ ((mem_timesOf rs u _).mpr ⟨r, hr, h1, h2, rfl⟩)

/-- C10 at a concrete input: the failure of duration 1 does not count, the minimum over
the successes is 50. -/
theorem minTime_is_min_of_positive_witness :
    (∀ r ∈ ([⟨"u", 200, 150⟩, ⟨"u", 500, 1⟩, ⟨"u", 200, 50⟩] : List result),
      isSuccess r → 0 < r.timeElapsed) ∧
    ∃ s, statFor [⟨"u", 200, 150⟩, ⟨"u", 500, 1⟩, ⟨"u", 200, 50⟩] "u" = some s ∧
      (∃ r ∈ ([⟨"u", 200, 150⟩, ⟨"u", 500, 1⟩, ⟨"u", 200, 50⟩] : List result),
        r.url = "u" ∧ isSuccess r ∧ r.timeElapsed = s.minTime) ∧
      (∀ r ∈ ([⟨"u", 200, 150⟩, ⟨"u", 500, 1⟩, ⟨"u", 200, 50⟩] : List result),
        r.url = "u" → isSuccess r → s.minTime ≤ r.timeElapsed) :=
  ⟨by decide,
    minTime_is_min_of_positive [⟨"u", 200, 150⟩, ⟨"u", 500, 1⟩, ⟨"u", 200, 50⟩] "u"
      (by decide) (by decide)⟩

end Lodestone
